import Mathlib

/-!
Verification of the githem ingestion and caching engine.

This file gives a shallow embedding, in Lean 4, of the parts of the
githem source that the specification talks about:

* the glob matcher and filter categories (core/src/lib.rs, core/src/filtering.rs),
* the path-inclusion decision of the ingester (core/src/ingester.rs),
* the per-file emitter and the linearized artifact (core/src/ingester.rs),
* GitHub/GitLab URL parsing and source normalization (core/src/parser.rs),
* owner/repo name validation (core/src/parser.rs, core/src/lib.rs),
* the in-memory artifact cache (api/src/cache.rs) and the
  key derivations of both caches (api/src/cache.rs, core/src/cache.rs).

Rust strings are modelled as lists of characters (List Char); Rust byte
lengths use the UTF-8 size of each character.  Machine integers (u64,
usize) are modelled as Nat, which is faithful here because every
subtraction performed by the modelled code happens under a hypothesis
that makes it non-truncating.  Filesystem and network effects are inputs
to the model: the result of reading a file is an Option (List Char)
(none models a read/decode failure) and the git ignore status of a path
is a Bool argument.
-/

namespace Githem

/-- Rust str::split(sep) on a list of characters: splits at every
occurrence of the separator; the empty input yields one empty segment,
mirroring Rust. -/
def splitChar (sep : Char) : List Char → List (List Char)
  | [] => [[]]
  | c :: cs =>
    match splitChar sep cs with
    | [] => [[c]]
    | s :: ss => if c = sep then [] :: s :: ss else (c :: s) :: ss

/-- Rust u64/usize byte length of a string: the sum of the UTF-8 sizes of
its characters (String::len counts bytes, not characters). -/
def byteLen (s : List Char) : Nat :=
  (s.map Char.utf8Size).sum

/-- The literal fall-through of glob_match (core/src/lib.rs:805):
path == pattern || path.starts_with(pattern + "/"). -/
def glob_literal (pattern path : List Char) : Bool :=
  path == pattern || (pattern ++ [Char.ofNat 47]).isPrefixOf path

/-- glob_match from core/src/lib.rs:789-806, translated clause for
clause.  The four branches, in source order: a pattern starting with
star-dot is a suffix match on everything after the star; a pattern
ending in slash-star strips those two characters and requires the rest
to be a proper initial segment of the path; a pattern with exactly one
star splits at it and requires the two parts as a start and an end of
the path; anything else is compared literally (equality or
directory-style initial segment). -/
def glob_match (pattern path : List Char) : Bool :=
  if (['*', '.']).isPrefixOf pattern then
    (pattern.drop 1).isSuffixOf path
  else if (['/', '*']).isSuffixOf pattern then
    let pfx := pattern.take (pattern.length - 2)
    pfx.isPrefixOf path && decide (pfx.length < path.length)
  else if pattern.contains '*' then
    match splitChar '*' pattern with
    | [p0, p1] => p0.isPrefixOf path && p1.isSuffixOf path
    | _ => glob_literal pattern path
  else
    glob_literal pattern path

/-- The build_artifacts category of FilterCategories::default
(core/src/filtering.rs:75-102), reproduced verbatim. -/
def build_artifacts : List String :=
  ["dist/*", "build/*", "out/*", ".next/*", ".nuxt/*", ".svelte-kit/*",
   ".output/*", "coverage/*", ".nyc_output/*", "*.tsbuildinfo", "*.buildlog",
   "cmake-build-*/*", "Release/*", "Debug/*", "x64/*", "x86/*", ".gradle/*",
   "gradle/*", "*.class", "*.o", "*.a", "*.obj", "*.lib", "*.exp", "*.pdb",
   "*.ilk"]

/-- The os_files category of FilterCategories::default
(core/src/filtering.rs:259-285), reproduced verbatim. -/
def os_files : List String :=
  [".DS_Store", ".AppleDouble", ".LSOverride", "._*",
   ".DocumentRevisions-V100", ".fseventsd", ".Spotlight-V100",
   ".TemporaryItems", ".Trashes", ".VolumeIcon.icns",
   ".com.apple.timemachine.donotpresent", ".AppleDB", ".AppleDesktop",
   "Network Trash Folder", "Temporary Items", ".apdisk", "Thumbs.db",
   "Thumbs.db:encryptable", "ehthumbs.db", "ehthumbs_vista.db",
   "*.stackdump", "[Dd]esktop.ini", "$RECYCLE.BIN/*", "*.cab", "*.lnk"]

/-- Rust str::starts_with with a char-slice pattern: true iff the first
character is one of the given characters. -/
def starts_with_any (cs : List Char) (name : List Char) : Bool :=
  match name with
  | [] => false
  | c :: _ => cs.contains c

/-- Rust str::ends_with with a char-slice pattern: true iff the last
character is one of the given characters. -/
def ends_with_any (cs : List Char) (name : List Char) : Bool :=
  match name.getLast? with
  | none => false
  | some c => cs.contains c

/-- validate_github_name from core/src/parser.rs:352-360 (the identical
function also appears at core/src/lib.rs:809-817 and
api/src/ingestion.rs:65-73).  The one library call the source makes,
char::is_alphanumeric, is Unicode-aware; it is passed in as the
classifier isAlnum, so theorems can record the relevant facts about it
(for instance that the letter e-acute is alphanumeric) as hypotheses.
Rust String::len counts UTF-8 bytes, hence byteLen. -/
def validate_github_name (isAlnum : Char → Bool) (name : List Char) : Bool :=
  !name.isEmpty
    && decide (byteLen name ≤ 39)
    && name.all (fun c => isAlnum c || c == '-' || c == '_' || c == '.')
    && !starts_with_any ['-', '.'] name
    && !ends_with_any ['-', '.'] name

/-- The name-validity rule as the specification words it: non-empty, at
most 39 characters, only ASCII alphanumerics and dash, underscore, dot,
and no leading or trailing dash or dot. -/
def validate_github_name_spec (name : List Char) : Bool :=
  !name.isEmpty
    && decide (name.length ≤ 39)
    && name.all (fun c => c.isAlphanum || c == '-' || c == '_' || c == '.')
    && !starts_with_any ['-', '.'] name
    && !ends_with_any ['-', '.'] name

/-- The optional-field contribution to a cache key preimage: absent
fields contribute no bytes, present fields are appended as a colon
followed by the value, with no length framing. -/
def optPart : Option (List Char) → List Char
  | none => []
  | some s => ':' :: s

/-- The byte sequence RepositoryCache::generate_key
(api/src/cache.rs:64-85) feeds to SHA-256 before hex-encoding. -/
def generate_key_bytes (url : List Char)
    (branch preset path : Option (List Char)) : List Char :=
  url ++ optPart branch ++ optPart preset ++ optPart path

/-- RepositoryCache::generate_key, with the hex-encoded SHA-256 digest
abstracted as the function hash (collisions below are preimage
collisions, so they hold for the real digest as well). -/
def generate_key (hash : List Char → List Char) (url : List Char)
    (branch preset path : Option (List Char)) : List Char :=
  hash (generate_key_bytes url branch preset path)

/-- The byte sequence RepositoryCache::generate_cache_key
(core/src/cache.rs:97-105) feeds to SHA-256. -/
def generate_cache_key_bytes (url : List Char)
    (branch : Option (List Char)) : List Char :=
  url ++ optPart branch

/-- generate_cache_key of the index cache, digest abstracted as above. -/
def generate_cache_key (hash : List Char → List Char) (url : List Char)
    (branch : Option (List Char)) : List Char :=
  hash (generate_cache_key_bytes url branch)

/-- Rust Path::file_name for the repo-relative paths the walker
produces (components separated by slashes, no trailing slash and no
dot components): the last slash-separated component. -/
def fileName (path : List Char) : Option (List Char) :=
  (splitChar '/' path).getLast?

/-- One include pattern applied to a path, as Ingester::should_include
does it (core/src/ingester.rs:127-142): a pattern ending in a slash
drops that final slash and requires the remainder to be a proper
initial segment of the path; a pattern without a slash is glob-matched
against the file name only; any other pattern is glob-matched against
the full path. -/
def include_match (p path : List Char) : Bool :=
  if (['/']).isSuffixOf p then
    let dirPfx := p.take (p.length - 1)
    dirPfx.isPrefixOf path && decide (dirPfx.length < path.length)
  else if !p.contains '/' then
    match fileName path with
    | some fn => glob_match p fn
    | none => false
  else
    glob_match p path

/-- Ingester::should_include (core/src/ingester.rs:107-146).  The git
ignore status of the path is an input (ignored); the source rejects an
ignored path unless untracked files were requested, then any path with
a .git component, then any path matching an effective exclude, and
finally requires a matching include pattern whenever the include set is
non-empty. -/
def should_include (ignored untracked : Bool)
    (excludes includes : List (List Char)) (path : List Char) : Bool :=
  if ignored && !untracked then false
  else if (splitChar '/' path).contains ".git".data then false
  else if excludes.any (fun pat => glob_match pat path) then false
  else if !includes.isEmpty then includes.any (fun p => include_match p path)
  else true

/-- One include pattern as the claim words it: a pattern ending in '/'
is matched as a directory prefix of the full path (the whole pattern,
slash included, must be an initial segment); a bare filename glob is
matched against the basename only; a pattern containing '/' is matched
against the full path. -/
def include_match_claim (p path : List Char) : Bool :=
  if (['/']).isSuffixOf p then
    p.isPrefixOf path
  else if !p.contains '/' then
    match fileName path with
    | some fn => glob_match p fn
    | none => false
  else
    glob_match p path

/-- Path acceptance as the claim words it, with the include shapes of
include_match_claim. -/
def accepts_claim (ignored untracked : Bool)
    (excludes includes : List (List Char)) (path : List Char) : Prop :=
  (ignored = true → untracked = true)
  ∧ ".git".data ∉ splitChar '/' path
  ∧ (∀ pat ∈ excludes, glob_match pat path = false)
  ∧ (includes ≠ [] → ∃ p ∈ includes, include_match_claim p path = true)

/-- Path acceptance as amended: identical to the claim except that a
trailing-slash include pattern matches when the path starts with the
pattern minus its final slash and is strictly longer than it. -/
def accepts_amended (ignored untracked : Bool)
    (excludes includes : List (List Char)) (path : List Char) : Prop :=
  (ignored = true → untracked = true)
  ∧ ".git".data ∉ splitChar '/' path
  ∧ (∀ pat ∈ excludes, glob_match pat path = false)
  ∧ (includes ≠ [] → ∃ p ∈ includes, include_match p path = true)

/-- A file of the working copy as the emitter sees it: its
repo-relative path, its on-disk size in bytes (fs::metadata len), and
the outcome of fs::read_to_string (none models a read or UTF-8 decode
failure, which the source replaces with the binary-file placeholder). -/
structure SourceFile where
  path : List Char
  size : Nat
  readContent : Option (List Char)
deriving DecidableEq

/-- Modelled from the spec: the path gate of license compression.
compress_license is called by Ingester::ingest_file
(core/src/ingester.rs:213) but its definition is not under src/;
section 4.5 rule 4 of the specification states that compression applies
when the relative path contains license, licence, or copying,
case-insensitively. -/
def licensePathGate (path : List Char) : Bool :=
  let lower := path.map Char.toLower
  decide ("license".data <:+: lower) || decide ("licence".data <:+: lower)
    || decide ("copying".data <:+: lower)

/-- Modelled from the spec: compress_license (referenced by
core/src/ingester.rs:213, definition missing from src/).  Per section
4.5 rule 4, it replaces the body with a single bracketed canonical
identifier line when the path gate holds and the content matches a
recognized license signature; the signature matcher, whose literal
substring tests are also not under src/, is the parameter detect,
returning the bracketed replacement line on a match. -/
def compress_license (detect : List Char → Option (List Char))
    (path content : List Char) : Option (List Char) :=
  if licensePathGate path then detect content else none

/-- The body the emitter writes for a file: the read content, or the
binary-file placeholder when reading failed, then license compression
applied (core/src/ingester.rs:209-215). -/
def fileBody (detect : List Char → Option (List Char))
    (f : SourceFile) : List Char :=
  let content := match f.readContent with
    | some c => c
    | none => "[binary file]".data
  match compress_license detect f.path content with
  | some compressed => compressed
  | none => content

/-- Ingester::ingest_file (core/src/ingester.rs:202-222): if the
on-disk size strictly exceeds max_file_size the function returns Ok
having written nothing; otherwise it writes the header line, the body
and a terminating blank line.  The returned list is exactly the
characters written to the output sink (the source function has no
other effect and its only early return is the silent skip). -/
def ingest_file (detect : List Char → Option (List Char))
    (max_file_size : Nat) (f : SourceFile) : List Char :=
  if f.size > max_file_size then []
  else "=== ".data ++ f.path ++ " ===".data ++ ['\n']
    ++ fileBody detect f ++ ['\n', '\n']

/-- Decimal digit character (used only with arguments below ten). -/
def digitChar (d : Nat) : Char :=
  match d with
  | 0 => '0' | 1 => '1' | 2 => '2' | 3 => '3' | 4 => '4'
  | 5 => '5' | 6 => '6' | 7 => '7' | 8 => '8' | 9 => '9'
  | _ => '?'

/-- Fuel-driven decimal rendering loop; the fuel n + 1 always
suffices since the argument shrinks by a factor of ten each step. -/
def natDigitsCore : Nat → Nat → List Char → List Char
  | 0, _, acc => acc
  | fuel + 1, n, acc =>
    if n < 10 then digitChar n :: acc
    else natDigitsCore fuel (n / 10) (digitChar (n % 10) :: acc)

/-- Decimal rendering of a natural number. -/
def natDigits (n : Nat) : List Char :=
  natDigitsCore (n + 1) n []

/-- Join a list of lines, terminating each with a newline, as the
writeln-based emitter produces them. -/
def unlines (ls : List (List Char)) : List Char :=
  (ls.map (fun l => l ++ ['\n'])).flatten

/-- Modelled from the spec: generate_tree_from_paths is called by
Ingester::ingest (core/src/ingester.rs:156) but its definition is not
under src/.  Section 4.5 fixes the preamble as a File Structure
heading, a blank line, a Total files count, a blank line, an indented
listing and a final blank line; the listing is modelled as one
two-space-indented line per path, which preserves the property at
issue here, namely in which lines of the preamble the header delimiter
sequence can occur. -/
def treeLines (paths : List (List Char)) : List (List Char) :=
  ["# File Structure".data, [],
   "Total files: ".data ++ natDigits paths.length, []]
  ++ paths.map (fun p => "  ".data ++ p)
  ++ [[]]

/-- The tree preamble as emitted characters. -/
def generate_tree_from_paths (paths : List (List Char)) : List Char :=
  unlines (treeLines paths)

/-- Ingester::ingest (core/src/ingester.rs:148-173): the tree preamble
over the filtered file list followed by each file's emitted block.
The files argument is the already-filtered list of existing regular
files; per-file emission is ingest_file. -/
def ingest (detect : List Char → Option (List Char)) (max_file_size : Nat)
    (files : List SourceFile) : List Char :=
  generate_tree_from_paths (files.map SourceFile.path)
    ++ (files.map (fun f => ingest_file detect max_file_size f)).flatten

/-- The lines a single file block contributes to the artifact: the
header line, the lines of the body, and a blank line — or nothing when
the size cap skips the file. -/
def blockLines (detect : List Char → Option (List Char))
    (max_file_size : Nat) (f : SourceFile) : List (List Char) :=
  if f.size > max_file_size then []
  else ("=== ".data ++ f.path ++ " ===".data)
    :: (splitChar '\n' (fileBody detect f) ++ [[]])

/-- Rust str::trim (both ends; the whitespace set is modelled by
Char.isWhitespace, which agrees with Rust on the ASCII whitespace all
recognized URLs are made of). -/
def trimChars (s : List Char) : List Char :=
  ((s.dropWhile Char.isWhitespace).reverse.dropWhile Char.isWhitespace).reverse

/-- Rust str::trim_end_matches applied to the slash character: removes
every trailing slash. -/
def trimEndSlashes (s : List Char) : List Char :=
  (s.reverse.dropWhile (fun c => c = '/')).reverse

/-- Rust str::contains with a string pattern. -/
def containsSub (sub s : List Char) : Bool :=
  decide (sub <:+: s)

/-- Rust str::strip_prefix: the remainder after the prefix, when the
string starts with it. -/
def stripPre (pre s : List Char) : Option (List Char) :=
  if pre.isPrefixOf s then some (s.drop pre.length) else none

/-- A chain of strip_prefix calls joined with or_else, as the parser
uses for the scheme variants of each forge host. -/
def firstStrip (pres : List (List Char)) (s : List Char) : Option (List Char) :=
  match pres with
  | [] => none
  | pre :: rest =>
    match stripPre pre s with
    | some r => some r
    | none => firstStrip rest s

/-- Rust slice join with the slash separator. -/
def joinSlash (ps : List (List Char)) : List Char :=
  List.intercalate ['/'] ps

/-- The URL kinds of core/src/parser.rs (enum GitHubUrlType). -/
inductive UrlType where
  | Repository | Tree | Blob | Raw | Commit | Gist | GistRaw | Compare
  | GitLabRepository | GitLabTree | GitLabBlob | GitLabMergeRequest
deriving DecidableEq

/-- ParsedGitHubUrl of core/src/parser.rs. -/
structure ParsedUrl where
  owner : List Char
  repo : List Char
  branch : Option (List Char)
  path : Option (List Char)
  url_type : UrlType
  canonical_url : List Char
deriving DecidableEq

/-- The canonical GitHub URL built by the parser. -/
def canonGithub (owner repo : List Char) : List Char :=
  "https://github.com/".data ++ owner ++ ['/'] ++ repo

/-- The conventional directory names of the ref/path split heuristic
(core/src/parser.rs:75-92). -/
def dirNames : List (List Char) :=
  ["src", "lib", "test", "tests", "docs", "bin", "pkg", "cmd", "internal",
   "api", "web", "client", "server", "assets", "public"].map String.data

/-- The boundary test of the ref/path split: a component containing a
dot that does not end in dot-git, or a conventional directory name
(core/src/parser.rs:70-96). -/
def refBoundary (part : List Char) : Bool :=
  (part.contains '.' && !(".git".data.isSuffixOf part)) || dirNames.contains part

/-- parse_gist_url (core/src/parser.rs:148-179). -/
def parse_gist_url (url : List Char) : Option ParsedUrl :=
  match firstStrip ["https://gist.github.com/".data,
      "http://gist.github.com/".data] url with
  | none => none
  | some path =>
    match splitChar '/' path with
    | [gid] => some ⟨"anonymous".data, gid, none, none, UrlType.Gist,
        "https://gist.github.com/".data ++ gid⟩
    | owner :: gid :: _ => some ⟨owner, gid, none, none, UrlType.Gist,
        "https://gist.github.com/".data ++ owner ++ ['/'] ++ gid⟩
    | [] => none

/-- parse_raw_url (core/src/parser.rs:181-208). -/
def parse_raw_url (url : List Char) : Option ParsedUrl :=
  match firstStrip ["https://raw.githubusercontent.com/".data,
      "http://raw.githubusercontent.com/".data] url with
  | none => none
  | some path =>
    match splitChar '/' path with
    | owner :: repo :: branch :: rest =>
      some ⟨owner, repo, some branch,
        (if rest.isEmpty then none else some (joinSlash rest)),
        UrlType.Raw, canonGithub owner repo⟩
    | _ => none

/-- parse_github_url (core/src/parser.rs:29-146): trim, route gist and
raw hosts to their parsers, strip a github.com scheme variant, then
dispatch on the path segments — two segments give a plain repository;
tree and blob apply the ref/path split heuristic; commit takes the
fourth segment; compare joins everything after it; anything else
(including a three-segment path) is unrecognized. -/
def parse_github_url (url0 : List Char) : Option ParsedUrl :=
  let url := trimEndSlashes (trimChars url0)
  if containsSub "gist.github.com".data url then parse_gist_url url
  else if containsSub "raw.githubusercontent.com".data url then parse_raw_url url
  else
    match firstStrip ["https://github.com/".data, "http://github.com/".data,
        "github.com/".data] url with
    | none => none
    | some path =>
      match splitChar '/' path with
      | [owner, repo] =>
        some ⟨owner, repo, none, none, UrlType.Repository, canonGithub owner repo⟩
      | owner :: repo :: action :: p3 :: rest =>
        if action = "tree".data ∨ action = "blob".data then
          let all_parts := p3 :: rest
          let idx := all_parts.findIdx refBoundary
          let branch := joinSlash (all_parts.take idx)
          let rpath := if idx < all_parts.length
            then some (joinSlash (all_parts.drop idx)) else none
          some ⟨owner, repo, some branch, rpath,
            (if action = "tree".data then UrlType.Tree else UrlType.Blob),
            canonGithub owner repo⟩
        else if action = "commit".data then
          some ⟨owner, repo, some p3, none, UrlType.Commit, canonGithub owner repo⟩
        else if action = "compare".data then
          some ⟨owner, repo, some (joinSlash (p3 :: rest)), none,
            UrlType.Compare, canonGithub owner repo⟩
        else none
      | _ => none

/-- parse_gitlab_url (core/src/parser.rs:210-319): after stripping a
gitlab.com scheme variant, a dash segment separates the (possibly
nested) project path from the action; tree, blob and merge_requests
are recognized behind it, and a URL without the separator is a plain
repository whose owner is the first and repo the last segment. -/
def parse_gitlab_url (url0 : List Char) : Option ParsedUrl :=
  let url := trimEndSlashes (trimChars url0)
  match firstStrip ["https://gitlab.com/".data, "http://gitlab.com/".data,
      "gitlab.com/".data] url with
  | none => none
  | some path =>
    let parts := splitChar '/' path
    if parts.length < 2 then none
    else
      match parts.findIdx? (fun p => p = "-".data) with
      | some sep_idx =>
        let project_parts := parts.take sep_idx
        let action_parts := parts.drop (sep_idx + 1)
        if project_parts.isEmpty || action_parts.isEmpty then none
        else
          let owner := project_parts.headD []
          let repo := project_parts.getLastD []
          let full_path := joinSlash project_parts
          match action_parts with
          | [] => none
          | action :: atail =>
            if action = "tree".data then
              match atail with
              | [] => none
              | branch :: ptail =>
                some ⟨owner, repo, some branch,
                  (if ptail.isEmpty then none else some (joinSlash ptail)),
                  UrlType.GitLabTree, "https://gitlab.com/".data ++ full_path⟩
            else if action = "blob".data then
              match atail with
              | branch :: p1 :: ptail =>
                some ⟨owner, repo, some branch, some (joinSlash (p1 :: ptail)),
                  UrlType.GitLabBlob, "https://gitlab.com/".data ++ full_path⟩
              | _ => none
            else if action = "merge_requests".data then
              match atail with
              | [] => none
              | mr :: _ =>
                some ⟨owner, repo, some mr, none, UrlType.GitLabMergeRequest,
                  "https://gitlab.com/".data ++ full_path⟩
            else none
      | none =>
        some ⟨parts.headD [], parts.getLastD [], none, none,
          UrlType.GitLabRepository,
          "https://gitlab.com/".data ++ joinSlash parts⟩

/-- The owner-slash-repo shorthand fallback of normalize_source_url
(core/src/parser.rs:341-347): no scheme separator, exactly one slash,
and both segments valid names; yields the GitHub URL it normalizes to. -/
def shorthand_candidate (isAlnum : Char → Bool) (source : List Char) :
    Option (List Char) :=
  if !containsSub "://".data source && source.count '/' == 1 then
    match splitChar '/' source with
    | [a, b] =>
      if validate_github_name isAlnum a && validate_github_name isAlnum b then
        some ("https://github.com/".data ++ a ++ ['/'] ++ b)
      else none
    | _ => none
  else none

/-- normalize_source_url (core/src/parser.rs:321-350): GitHub first,
then GitLab, then the shorthand fallback; any other input is returned
unchanged in an Ok — the function has no error path at all. -/
def normalize_source_url (isAlnum : Char → Bool) (source : List Char)
    (branch pathPfx : Option (List Char)) :
    Except (List Char) (List Char × Option (List Char) × Option (List Char)) :=
  match parse_github_url source with
  | some parsed =>
    Except.ok (parsed.canonical_url, branch.or parsed.branch,
      pathPfx.or parsed.path)
  | none =>
    match parse_gitlab_url source with
    | some parsed =>
      Except.ok (parsed.canonical_url, branch.or parsed.branch,
        pathPfx.or parsed.path)
    | none =>
      match shorthand_candidate isAlnum source with
      | some url => Except.ok (url, branch, pathPfx)
      | none => Except.ok (source, branch, pathPfx)

/-- Hard expiry of the artifact cache (api/src/cache.rs:12), seconds. -/
def CACHE_EXPIRE_SECS : Nat := 604800

/-- Freshness window of the artifact cache (api/src/cache.rs:9),
seconds. -/
def CACHE_FRESH_SECS : Nat := 300

/-- CachedRepository (api/src/cache.rs:14-26).  The IngestionResult is
reduced to its content string, the only field the cache logic reads
(size_bytes is its length).  Timestamps are seconds since the epoch. -/
structure CachedRepository where
  key : List Char
  url : List Char
  branch : Option (List Char)
  commit_hash : List Char
  result_content : List Char
  created_at : Nat
  last_accessed : Nat
  last_validated : Nat
  access_count : Nat
  size_bytes : Nat
deriving DecidableEq

/-- The HashMap String CachedRepository of RepositoryCache, modelled as
the list of its entries; in reachable states keys are the entries' key
fields and are pairwise distinct.  List order stands in for the
unspecified HashMap iteration order (none of the proved properties
depends on it). -/
abbrev CacheState := List CachedRepository

/-- RepositoryCache::calculate_size (api/src/cache.rs:207-209). -/
def calculate_size (s : CacheState) : Nat :=
  (s.map CachedRepository.size_bytes).sum

/-- values().min_by_key(last_accessed).map(key)
(api/src/cache.rs:182-185): the key of the first entry, in iteration
order, with minimal last_accessed. -/
def lru_key (s : CacheState) : Option (List Char) :=
  match s with
  | [] => none
  | e :: es =>
    some ((es.foldl
      (fun acc x => if x.last_accessed < acc.last_accessed then x else acc)
      e).key)

/-- HashMap::remove of the entry at a key (keys are unique in reachable
states, so the filter removes exactly that entry). -/
def removeKey (k : List Char) (s : CacheState) : CacheState :=
  s.filter (fun e => !(e.key == k))

/-- The eviction loop of RepositoryCache::put (api/src/cache.rs:180-190):
while the current size plus the incoming size exceeds the budget and
the map is non-empty, remove the least-recently-accessed entry.  Each
iteration removes one present entry, so running it with fuel equal to
the number of entries is exactly the source's while loop. -/
def evict_loop (max_size new_size : Nat) : Nat → CacheState → CacheState
  | 0, s => s
  | fuel + 1, s =>
    if decide (max_size < calculate_size s + new_size) && !s.isEmpty then
      match lru_key s with
      | some k => evict_loop max_size new_size fuel (removeKey k s)
      | none => s
    else s

/-- The entry RepositoryCache::put builds (api/src/cache.rs:161-175):
all three timestamps set to now, access count one, size the content
length. -/
def mkEntry (now : Nat) (key url : List Char) (branch : Option (List Char))
    (commit_hash result_content : List Char) : CachedRepository :=
  ⟨key, url, branch, commit_hash, result_content, now, now, now, 1,
    result_content.length⟩

/-- RepositoryCache::put (api/src/cache.rs:153-193): evict under the
byte budget, then insert, replacing any entry already at the key. -/
def put (max_size now : Nat) (key url : List Char)
    (branch : Option (List Char)) (commit_hash result_content : List Char)
    (s : CacheState) : CacheState :=
  let entry := mkEntry now key url branch commit_hash result_content
  let s1 := evict_loop max_size result_content.length s.length s
  entry :: removeKey key s1

/-- RepositoryCache::get (api/src/cache.rs:111-135): on a hit past hard
expiry the entry is removed and the call misses; otherwise the hit
bumps last_accessed and access_count. -/
def get (now : Nat) (key : List Char) (s : CacheState) : CacheState :=
  match s.find? (fun e => e.key == key) with
  | none => s
  | some e =>
    if CACHE_EXPIRE_SECS < now - e.created_at then removeKey key s
    else s.map (fun x => if x.key == key then
      { x with last_accessed := now, access_count := x.access_count + 1 }
      else x)

/-- RepositoryCache::mark_validated (api/src/cache.rs:137-145): sets
last_validated to now, leaving last_accessed untouched. -/
def mark_validated (now : Nat) (key : List Char) (s : CacheState) : CacheState :=
  s.map (fun x => if x.key == key then { x with last_validated := now } else x)

/-- RepositoryCache::invalidate (api/src/cache.rs:147-151). -/
def invalidate (key : List Char) (s : CacheState) : CacheState :=
  removeKey key s

/-- The mutating operations of the artifact cache, each carrying the
wall-clock second at which it runs (check_status reads the clock but
never mutates, so it acts as the identity on the state). -/
inductive CacheOp where
  | opPut (now : Nat) (key url : List Char) (branch : Option (List Char))
      (commit_hash result_content : List Char)
  | opGet (now : Nat) (key : List Char)
  | opMarkValidated (now : Nat) (key : List Char)
  | opInvalidate (key : List Char)
  | opCheckStatus (now : Nat) (key : List Char)

/-- The state transition of one operation; max_size is the byte budget
the cache was constructed with. -/
def step (max_size : Nat) (op : CacheOp) (s : CacheState) : CacheState :=
  match op with
  | CacheOp.opPut now key url branch commit content =>
    put max_size now key url branch commit content s
  | CacheOp.opGet now key => get now key s
  | CacheOp.opMarkValidated now key => mark_validated now key s
  | CacheOp.opInvalidate key => invalidate key s
  | CacheOp.opCheckStatus _ _ => s

/-- The clock after an operation ran at clock c (invalidate reads no
clock and leaves it unchanged). -/
def opClock (c : Nat) : CacheOp → Nat
  | CacheOp.opPut now _ _ _ _ _ => now
  | CacheOp.opGet now _ => now
  | CacheOp.opMarkValidated now _ => now
  | CacheOp.opInvalidate _ => c
  | CacheOp.opCheckStatus now _ => now

/-- A trace is time-monotone from clock c when every operation runs no
earlier than the clock left by its predecessors. -/
def timesMonotone (c : Nat) : List CacheOp → Bool
  | [] => true
  | op :: ops => decide (c ≤ opClock c op) && timesMonotone (opClock c op) ops

/-- Run a trace of operations from a state. -/
def run (max_size : Nat) (s : CacheState) (ops : List CacheOp) : CacheState :=
  ops.foldl (fun st op => step max_size op st) s

/-- The timestamp facts that actually hold of a cache entry when the
clock reads c: creation precedes both the last validation and the last
access, and both are no later than the clock.  (The claimed ordering of
last_validated before last_accessed is not among them.) -/
def entryInv (c : Nat) (e : CachedRepository) : Prop :=
  e.created_at ≤ e.last_validated ∧ e.created_at ≤ e.last_accessed
    ∧ e.last_validated ≤ c ∧ e.last_accessed ≤ c

/-- All entries of a state satisfy the timestamp facts at clock c. -/
def stateInv (c : Nat) (s : CacheState) : Prop :=
  ∀ e ∈ s, entryInv c e

/-- The clock after a trace run from clock c. -/
def clockAfter (c : Nat) (ops : List CacheOp) : Nat :=
  ops.foldl opClock c

example : glob_match "*.rs".data "main.rs".data = true := by decide

example : glob_match "*.rs".data "src/main.rs".data = true := by decide

example : glob_match "src/*".data "src/main.rs".data = true := by decide

example : glob_match "*.rs".data "main.py".data = false := by decide

/-- The slash-star branch of glob_match in closed form: when the pattern
is some prefix followed by slash-star (and does not start with star-dot,
so the first branch is skipped), the match succeeds exactly when the
path extends the bare prefix, without requiring the separator. -/
theorem glob_slashStar_eq (pfx path : List Char)
    (h : (['*', '.']).isPrefixOf (pfx ++ ['/', '*']) = false) :
    glob_match (pfx ++ ['/', '*']) path
      = (pfx.isPrefixOf path && decide (pfx.length < path.length)) := by
  have hsuf : (['/', '*']).isSuffixOf (pfx ++ ['/', '*']) = true :=
    List.isSuffixOf_iff_suffix.mpr (List.suffix_append pfx ['/', '*'])
  have hlen : (pfx ++ ['/', '*']).length - 2 = pfx.length := by
    simp [List.length_append]
  have htake : (pfx ++ ['/', '*']).take ((pfx ++ ['/', '*']).length - 2) = pfx := by
    rw [hlen]; exact List.take_left pfx ['/', '*']
  simp only [glob_match, h, hsuf, htake, Bool.false_eq_true, if_false, if_true]

/-- C6 counterexample: the pattern src-slash-star matches the path
srcx even though srcx does not begin with the four characters
src-slash, refuting the claim that such patterns require the separator
and at least one character beyond it. -/
theorem globSlashStar_counterexample :
    glob_match "src/*".data "srcx".data = true
      ∧ ("src/".data).isPrefixOf "srcx".data = false := by
  exact ⟨by decide, by decide⟩

/-- C6 (amended): a pattern of the form prefix-slash-star (not starting
with star-dot) matches a path iff the path starts with the bare prefix
(the slash is stripped together with the star) and is strictly longer
than it; the separator itself is not required. -/
theorem globSlashStar_amended (pfx path : List Char)
    (h : (['*', '.']).isPrefixOf (pfx ++ ['/', '*']) = false) :
    glob_match (pfx ++ ['/', '*']) path = true
      ↔ (pfx <+: path ∧ pfx.length < path.length) := by
  rw [glob_slashStar_eq pfx path h]
  simp [List.isPrefixOf_iff_prefix]

/-- Witness for C6's amended theorem at a concrete instance. -/
theorem globSlashStar_amended_witness :
    glob_match ("src".data ++ ['/', '*']) "srcx".data = true
      ↔ ("src".data <+: "srcx".data ∧ ("src".data).length < ("srcx".data).length) :=
  globSlashStar_amended "src".data "srcx".data (by decide)

/-- C10: the matcher treats the published Standard-preset patterns
cmake-build-star-slash-star and bracketed-desktop.ini without glob
semantics beyond its three recognized shapes.  The bracket pattern is
compared literally, so it never matches Desktop.ini and any path it
matches literally contains the bracket characters; the cmake pattern
keeps its interior star as a literal character of the stripped prefix,
so it never matches a path under a real directory such as
cmake-build-debug and any path it matches literally contains the
characters cmake-build-star.  Patterns fitting none of the three shapes
fall through to the literal comparison. -/
theorem glob_preset_literal_patterns :
    ("cmake-build-*/*" ∈ build_artifacts ∧ "[Dd]esktop.ini" ∈ os_files)
    ∧ glob_match "[Dd]esktop.ini".data "Desktop.ini".data = false
    ∧ (∀ s : List Char,
        glob_match "cmake-build-*/*".data ("cmake-build-debug/".data ++ s) = false)
    ∧ (∀ p : List Char,
        glob_match "[Dd]esktop.ini".data p = true → "[Dd]esktop.ini".data <:+: p)
    ∧ (∀ p : List Char,
        glob_match "cmake-build-*/*".data p = true → "cmake-build-*".data <:+: p)
    ∧ (∀ pattern p : List Char,
        (['*', '.']).isPrefixOf pattern = false →
        (['/', '*']).isSuffixOf pattern = false →
        (splitChar '*' pattern).length ≠ 2 →
        glob_match pattern p = glob_literal pattern p) := by
  refine ⟨⟨by decide, by decide⟩, by decide, ?_, ?_, ?_, ?_⟩
  · intro s
    have hpat : "cmake-build-*/*".data = "cmake-build-*".data ++ ['/', '*'] := by decide
    rw [hpat, glob_slashStar_eq _ _ (by decide)]
    have hpre : ("cmake-build-*".data).isPrefixOf ("cmake-build-debug/".data ++ s) = false := rfl
    rw [hpre, Bool.false_and]
  · intro p h
    have hlit : glob_literal "[Dd]esktop.ini".data p = true := h
    rcases Bool.or_eq_true .. |>.mp hlit with heq | hpre
    · have : p = "[Dd]esktop.ini".data := by simpa using heq
      exact this ▸ List.infix_refl _
    · have h1 : "[Dd]esktop.ini".data ++ ['/'] <+: p :=
        List.isPrefixOf_iff_prefix.mp hpre
      exact ((List.prefix_append _ _).trans h1).isInfix
  · intro p h
    have hpat : "cmake-build-*/*".data = "cmake-build-*".data ++ ['/', '*'] := by decide
    rw [hpat, glob_slashStar_eq _ _ (by decide)] at h
    have hpre : ("cmake-build-*".data).isPrefixOf p = true :=
      (Bool.and_eq_true .. |>.mp h).1
    exact (List.isPrefixOf_iff_prefix.mp hpre).isInfix
  · intro pattern p h1 h2 h3
    simp only [glob_match, h1, h2, Bool.false_eq_true, if_false]
    by_cases hc : pattern.contains '*'
    · simp only [hc, if_true]
      rcases hs : splitChar '*' pattern with _ | ⟨a, _ | ⟨b, _ | _⟩⟩ <;>
        simp_all [hs]
    · simp only [hc, Bool.false_eq_true, if_false]

/-- Witness for C10 at concrete inputs. -/
theorem glob_preset_literal_patterns_witness :
    glob_match "cmake-build-*/*".data ("cmake-build-debug/".data ++ "x".data) = false
    ∧ glob_match "a".data "b".data = glob_literal "a".data "b".data :=
  ⟨glob_preset_literal_patterns.2.2.1 "x".data,
   glob_preset_literal_patterns.2.2.2.2.2 "a".data "b".data (by decide) (by decide)
     (by decide)⟩

example : validate_github_name (fun c => c.isAlphanum) "rust-lang".data = true := by decide

example : validate_github_name (fun c => c.isAlphanum) "-invalid".data = false := by decide

example : validate_github_name (fun c => c.isAlphanum) "invalid-".data = false := by decide

example : validate_github_name (fun c => c.isAlphanum) "".data = false := by decide

/-- C7: the code accepts the single-character name e-acute, because
Rust char::is_alphanumeric is Unicode-aware and classifies it as
alphabetic (the hypothesis records that library fact), while the
specified rule, which admits ASCII alphanumerics only, rejects it. -/
theorem validate_github_name_unicode (isAlnum : Char → Bool)
    (h : isAlnum 'é' = true) :
    validate_github_name isAlnum "é".data = true
      ∧ validate_github_name_spec "é".data = false := by
  refine ⟨?_, by decide⟩
  have hsize : ('é').utf8Size ≤ 39 := by decide
  simp [validate_github_name, byteLen, starts_with_any, ends_with_any, h, hsize]

/-- Witness for C7 with a concrete classifier agreeing with
char::is_alphanumeric on the probed character. -/
theorem validate_github_name_unicode_witness :
    validate_github_name (fun c => c == 'é' || c.isAlphanum) "é".data = true
      ∧ validate_github_name_spec "é".data = false :=
  validate_github_name_unicode (fun c => c == 'é' || c.isAlphanum) (by decide)

/-- C9: neither cache key function is injective.  Because absent
optional fields contribute nothing and present ones are appended as
colon plus value without framing, the tuple (u, branch s, no preset)
and the tuple (u, no branch, preset s) feed identical bytes to SHA-256,
as do the url u-colon-s with no branch and the url u with branch s;
hence their keys agree for every digest function.  The same holds for
the index cache key over (url, branch). -/
theorem cache_keys_not_injective :
    (∀ hash : List Char → List Char,
      generate_key hash "u".data (some "s".data) none none
        = generate_key hash "u".data none (some "s".data) none)
    ∧ ("u".data, some "s".data, (none : Option (List Char)),
        (none : Option (List Char)))
        ≠ ("u".data, (none : Option (List Char)), some "s".data,
            (none : Option (List Char)))
    ∧ (∀ hash : List Char → List Char,
      generate_key hash "u:s".data none none none
        = generate_key hash "u".data (some "s".data) none none)
    ∧ ("u:s".data ≠ "u".data)
    ∧ (∀ hash : List Char → List Char,
      generate_cache_key hash "u:s".data none
        = generate_cache_key hash "u".data (some "s".data))
    ∧ (("u:s".data, (none : Option (List Char)))
        ≠ ("u".data, some "s".data)) := by
  refine ⟨?_, by decide, ?_, by decide, ?_, by decide⟩
  · intro hash
    exact congrArg hash (by decide)
  · intro hash
    exact congrArg hash (by decide)
  · intro hash
    exact congrArg hash (by decide)

/-- C5 counterexample: with the single include pattern src-slash and no
excludes, the path srcx is accepted by the code (the trailing slash is
dropped before the starts-with test) but is not under the directory
src, so the claim's directory-prefix reading rejects it. -/
theorem should_include_counterexample :
    should_include false false [] ["src/".data] "srcx".data = true
      ∧ ¬ accepts_claim false false [] ["src/".data] "srcx".data := by
  constructor
  · decide
  · intro ⟨_, _, _, h4⟩
    obtain ⟨p, hp, hm⟩ := h4 (by simp)
    have hps : p = "src/".data := by simpa using hp
    subst hps
    have : ("src/".data).isPrefixOf "srcx".data = true := by
      have := hm
      rw [include_match_claim, if_pos (by decide)] at this
      exact this
    exact absurd this (by decide)

/-- C5 (amended): for every ignore status, untracked flag, exclude set,
include set and path, the code accepts the path iff it passes the
ignored-status, VCS-metadata and exclude checks and, when the include
set is non-empty, some include pattern matches it — where a bare
filename glob applies to the basename, a pattern containing '/' applies
to the full path, and a trailing-slash pattern requires the path to
start with the pattern minus its final slash and be strictly longer. -/
theorem should_include_iff (ignored untracked : Bool)
    (excludes includes : List (List Char)) (path : List Char) :
    should_include ignored untracked excludes includes path = true
      ↔ accepts_amended ignored untracked excludes includes path := by
  unfold should_include accepts_amended
  by_cases h1 : (ignored && !untracked) = true <;>
    by_cases h2 : ((splitChar '/' path).contains ".git".data) = true <;>
      by_cases h3 : (excludes.any fun pat => glob_match pat path) = true <;>
        by_cases h4 : includes.isEmpty = true <;>
          simp_all [List.any_eq_true, List.elem_iff, List.isEmpty_iff,
            Bool.and_eq_true, Bool.not_eq_true'] <;>
        intros <;> cases ignored <;> simp_all

/-- C3: a file of exactly max_file_size bytes is emitted as a full
block (header line, body, terminating blank line), while a file of
max_file_size + 1 bytes produces no output at all — the comparison in
the source is strict, and the skip path returns Ok, so no error is
raised either. -/
theorem ingest_file_size_boundary (detect : List Char → Option (List Char))
    (max_file_size : Nat) (f : SourceFile) :
    (f.size = max_file_size →
      ingest_file detect max_file_size f
        = "=== ".data ++ f.path ++ " ===".data ++ ['\n']
          ++ fileBody detect f ++ ['\n', '\n'])
    ∧ (f.size = max_file_size + 1 →
      ingest_file detect max_file_size f = []) := by
  constructor
  · intro h
    unfold ingest_file
    rw [if_neg]
    omega
  · intro h
    unfold ingest_file
    rw [if_pos]
    omega

/-- Witness for C3 at a concrete file, size cap 5. -/
theorem ingest_file_size_boundary_witness :
    ingest_file (fun _ => none) 5 ⟨"a.txt".data, 5, some "hello".data⟩
        = "=== ".data ++ "a.txt".data ++ " ===".data ++ ['\n']
          ++ fileBody (fun _ => none) ⟨"a.txt".data, 5, some "hello".data⟩
          ++ ['\n', '\n']
      ∧ ingest_file (fun _ => none) 4 ⟨"a.txt".data, 5, some "hello".data⟩ = [] :=
  ⟨(ingest_file_size_boundary (fun _ => none) 5
      ⟨"a.txt".data, 5, some "hello".data⟩).1 rfl,
   (ingest_file_size_boundary (fun _ => none) 4
      ⟨"a.txt".data, 5, some "hello".data⟩).2 rfl⟩

theorem splitChar_ne_nil (sep : Char) (xs : List Char) :
    splitChar sep xs ≠ [] := by
  cases xs with
  | nil => simp [splitChar]
  | cons c cs =>
    unfold splitChar
    cases h : splitChar sep cs with
    | nil => simp
    | cons s ss =>
      by_cases hc : c = sep <;> simp [hc]

theorem splitChar_append_cons (sep : Char) (xs ys : List Char) :
    splitChar sep (xs ++ sep :: ys) = splitChar sep xs ++ splitChar sep ys := by
  induction xs with
  | nil =>
    simp only [List.nil_append]
    cases h : splitChar sep ys with
    | nil => exact absurd h (splitChar_ne_nil sep ys)
    | cons s ss => simp [splitChar, h]
  | cons c cs ih =>
    simp only [List.cons_append]
    cases h : splitChar sep cs with
    | nil => exact absurd h (splitChar_ne_nil sep cs)
    | cons s ss =>
      by_cases hc : c = sep <;> simp [splitChar, ih, h, hc]

theorem splitChar_of_not_mem {sep : Char} {xs : List Char} (h : sep ∉ xs) :
    splitChar sep xs = [xs] := by
  induction xs with
  | nil => simp [splitChar]
  | cons c cs ih =>
    have hc : ¬c = sep := fun hcc => h (hcc ▸ List.mem_cons_self c cs)
    have hcs : sep ∉ cs := fun hm => h (List.mem_cons_of_mem c hm)
    unfold splitChar
    rw [ih hcs]
    simp [hc]

theorem not_mem_of_mem_splitChar {sep : Char} {xs l : List Char}
    (h : l ∈ splitChar sep xs) : sep ∉ l := by
  induction xs generalizing l with
  | nil =>
    simp [splitChar] at h
    simp [h]
  | cons c cs ih =>
    unfold splitChar at h
    cases hs : splitChar sep cs with
    | nil => exact absurd hs (splitChar_ne_nil sep cs)
    | cons s ss =>
      rw [hs] at h
      by_cases hc : c = sep
      · simp [hc] at h
        rcases h with h | h | h
        · simp [h]
        · exact ih (h ▸ hs ▸ List.mem_cons_self s ss)
        · exact ih (hs ▸ List.mem_cons_of_mem s h)
      · simp [hc] at h
        rcases h with h | h
        · intro hmem
          rw [h] at hmem
          rcases List.mem_cons.mp hmem with hm | hm
          · exact hc hm.symm
          · exact ih (hs ▸ List.mem_cons_self s ss) hm
        · exact ih (hs ▸ List.mem_cons_of_mem s h)

theorem splitChar_head_prefix {sep : Char} {xs s : List Char}
    {ss : List (List Char)} (h : splitChar sep xs = s :: ss) : s <+: xs := by
  induction xs generalizing s ss with
  | nil =>
    simp [splitChar] at h
    simp [h.1]
  | cons c cs ih =>
    unfold splitChar at h
    cases hs : splitChar sep cs with
    | nil => exact absurd hs (splitChar_ne_nil sep cs)
    | cons u us =>
      rw [hs] at h
      by_cases hc : c = sep
      · simp [hc] at h
        simp [h.1]
      · simp [hc] at h
        rw [← h.1]
        exact List.cons_prefix_cons.mpr ⟨rfl, ih hs⟩

theorem infix_of_mem_splitChar {sep : Char} {xs l : List Char}
    (h : l ∈ splitChar sep xs) : l <:+: xs := by
  induction xs generalizing l with
  | nil =>
    simp [splitChar] at h
    simp [h]
  | cons c cs ih =>
    unfold splitChar at h
    cases hs : splitChar sep cs with
    | nil => exact absurd hs (splitChar_ne_nil sep cs)
    | cons s ss =>
      rw [hs] at h
      by_cases hc : c = sep
      · simp [hc] at h
        rcases h with h | h | h
        · simp [h]
        · exact (ih (h ▸ hs ▸ List.mem_cons_self s ss)).trans
            (List.infix_cons (List.infix_refl cs))
        · exact (ih (hs ▸ List.mem_cons_of_mem s h)).trans
            (List.infix_cons (List.infix_refl cs))
      · simp [hc] at h
        rcases h with h | h
        · have hsp : s <+: cs := splitChar_head_prefix hs
          have : l <+: c :: cs := h ▸ List.cons_prefix_cons.mpr ⟨rfl, hsp⟩
          exact this.isInfix
        · exact (ih (hs ▸ List.mem_cons_of_mem s h)).trans
            (List.infix_cons (List.infix_refl cs))

theorem digitChar_isDigit {d : Nat} (h : d < 10) :
    (digitChar d).isDigit = true := by
  interval_cases d <;> decide

theorem natDigitsCore_all_digits (fuel n : Nat) (acc : List Char)
    (hacc : ∀ c ∈ acc, c.isDigit = true) :
    ∀ c ∈ natDigitsCore fuel n acc, c.isDigit = true := by
  induction fuel generalizing n acc with
  | zero => exact hacc
  | succ fuel ih =>
    unfold natDigitsCore
    by_cases h : n < 10
    · rw [if_pos h]
      intro c hc
      rcases List.mem_cons.mp hc with hc | hc
      · exact hc ▸ digitChar_isDigit h
      · exact hacc c hc
    · rw [if_neg h]
      refine ih (n / 10) (digitChar (n % 10) :: acc) ?_
      intro c hc
      rcases List.mem_cons.mp hc with hc | hc
      · exact hc ▸ digitChar_isDigit (Nat.mod_lt n (by omega))
      · exact hacc c hc

theorem natDigits_all_digits (n : Nat) :
    ∀ c ∈ natDigits n, c.isDigit = true :=
  natDigitsCore_all_digits (n + 1) n [] (by simp)

/-- C4 counterexample: a repository with the single file a.txt whose
content is the seven characters x-space-equals-equals-equals-space-y.
The emitter copies the body verbatim, so the artifact contains a line
in which the delimiter sequence occurs away from column 0 and which is
not a file-header line, refuting the claimed invariant for arbitrary
repositories. -/
theorem delimiter_counterexample :
    ∃ line ∈ splitChar '\n'
        (ingest (fun _ => none) 100 [⟨"a.txt".data, 5, some "x === y".data⟩]),
      "=== ".data <:+: line ∧ ¬ ("=== ".data <+: line) := by
  refine ⟨"x === y".data, by decide, by decide, by decide⟩

/-- Splitting an occurrence of an infix across an append: either the
occurrence lies wholly in the right part, or it starts inside the left
part, in which case the head of the infix appears at some position of
the left part. -/
theorem infix_append_split {q a b : List Char} (h : q <:+: a ++ b)
    (hq : q ≠ []) :
    q <:+: b ∨ ∃ i, i < a.length ∧ a[i]? = q.head? := by
  obtain ⟨s, t, hst⟩ := h
  by_cases hl : a.length ≤ s.length
  · left
    have hs_pre : s <+: a ++ b := ⟨q ++ t, by simpa [List.append_assoc] using hst⟩
    have ha_pre : a <+: s :=
      List.prefix_of_prefix_length_le (List.prefix_append a b) hs_pre hl
    obtain ⟨u, hu⟩ := ha_pre
    refine ⟨u, t, ?_⟩
    have : a ++ (u ++ q ++ t) = a ++ b := by
      rw [← hst, ← hu]
      simp [List.append_assoc]
    simpa [List.append_assoc] using List.append_cancel_left this
  · right
    push_neg at hl
    refine ⟨s.length, hl, ?_⟩
    have h1 : (a ++ b)[s.length]? = a[s.length]? :=
      List.getElem?_append_left hl
    have h2 : (a ++ b)[s.length]? = q.head? := by
      rw [← hst, List.append_assoc,
        List.getElem?_append_right (Nat.le_refl s.length)]
      cases q with
      | nil => exact absurd rfl hq
      | cons c cs => simp
    rw [← h1, h2]

theorem unlines_append (a b : List (List Char)) :
    unlines (a ++ b) = unlines a ++ unlines b := by
  simp [unlines]

theorem unlines_flatten (L : List (List (List Char))) :
    unlines L.flatten = (L.map unlines).flatten := by
  induction L with
  | nil => simp [unlines]
  | cons a L ih => simp [unlines_append, ih]

theorem unlines_splitChar (xs : List Char) :
    unlines (splitChar '\n' xs) = xs ++ ['\n'] := by
  induction xs with
  | nil => simp [splitChar, unlines]
  | cons c cs ih =>
    cases hs : splitChar '\n' cs with
    | nil => exact absurd hs (splitChar_ne_nil _ cs)
    | cons s ss =>
      rw [hs] at ih
      by_cases hc : c = '\n'
      · simp only [splitChar, hs, if_pos hc]
        rw [show unlines ([] :: s :: ss) = '\n' :: unlines (s :: ss) from by
          simp [unlines]]
        rw [ih, hc]
        simp
      · simp only [splitChar, hs, if_neg hc]
        rw [show unlines ((c :: s) :: ss) = c :: unlines (s :: ss) from by
          simp [unlines]]
        rw [ih]
        simp

theorem splitChar_unlines (ls : List (List Char))
    (h : ∀ l ∈ ls, '\n' ∉ l) :
    splitChar '\n' (unlines ls) = ls ++ [[]] := by
  induction ls with
  | nil => simp [unlines, splitChar]
  | cons l ls ih =>
    have hl : unlines (l :: ls) = l ++ '\n' :: unlines ls := by
      simp [unlines]
    rw [hl, splitChar_append_cons,
      splitChar_of_not_mem (h l (List.mem_cons_self l ls)),
      ih (fun x hx => h x (List.mem_cons_of_mem l hx))]
    simp

theorem ingest_file_eq_unlines (detect : List Char → Option (List Char))
    (max_file_size : Nat) (f : SourceFile) :
    ingest_file detect max_file_size f
      = unlines (blockLines detect max_file_size f) := by
  unfold ingest_file blockLines
  by_cases h : f.size > max_file_size
  · simp [h, unlines]
  · rw [if_neg h, if_neg h]
    have : unlines (("=== ".data ++ f.path ++ " ===".data)
        :: (splitChar '\n' (fileBody detect f) ++ [[]]))
        = ("=== ".data ++ f.path ++ " ===".data) ++ ['\n']
          ++ unlines (splitChar '\n' (fileBody detect f)) ++ unlines [[]] := by
      simp [unlines]
    rw [this, unlines_splitChar]
    simp [unlines]

theorem ingest_eq_unlines (detect : List Char → Option (List Char))
    (max_file_size : Nat) (files : List SourceFile) :
    ingest detect max_file_size files
      = unlines (treeLines (files.map SourceFile.path)
          ++ (files.map (fun f => blockLines detect max_file_size f)).flatten) := by
  unfold ingest generate_tree_from_paths
  rw [unlines_append, unlines_flatten]
  congr 1
  simp only [List.map_map]
  congr 1
  exact List.map_congr_left fun f _ => ingest_file_eq_unlines detect max_file_size f

theorem no_delim_in_nil : ¬ ("=== ".data <:+: ([] : List Char)) := by
  intro h
  have := List.sublist_nil.mp h.sublist
  exact absurd this (by decide)

theorem no_delim_in_total_line (n : Nat) :
    ¬ ("=== ".data <:+: ("Total files: ".data ++ natDigits n)) := by
  intro h
  rcases infix_append_split h (by decide) with h | ⟨i, hi, hv⟩
  · have hmem : '=' ∈ natDigits n := h.subset (by decide)
    have := natDigits_all_digits n '=' hmem
    exact absurd this (by decide)
  · have hhead : ("=== ".data).head? = some '=' := by decide
    rw [hhead] at hv
    have hall : ∀ j, j < ("Total files: ".data).length →
        ¬ (("Total files: ".data)[j]? = some '=') := by decide
    exact hall i hi hv

theorem no_delim_in_indent_line (p : List Char)
    (hp : ¬ ("=== ".data <:+: p)) :
    ¬ ("=== ".data <:+: ("  ".data ++ p)) := by
  intro h
  rcases infix_append_split h (by decide) with h | ⟨i, hi, hv⟩
  · exact hp h
  · have hhead : ("=== ".data).head? = some '=' := by decide
    rw [hhead] at hv
    have hall : ∀ j, j < ("  ".data).length →
        ¬ (("  ".data)[j]? = some '=') := by decide
    exact hall i hi hv

theorem mem_treeLines_cases {paths : List (List Char)} {l : List Char}
    (h : l ∈ treeLines paths) :
    l = "# File Structure".data ∨ l = []
      ∨ l = "Total files: ".data ++ natDigits paths.length
      ∨ ∃ p ∈ paths, l = "  ".data ++ p := by
  unfold treeLines at h
  rcases List.mem_append.mp h with h | h
  · rcases List.mem_append.mp h with h | h
    · rcases List.mem_cons.mp h with h | h
      · exact Or.inl h
      rcases List.mem_cons.mp h with h | h
      · exact Or.inr (Or.inl h)
      rcases List.mem_cons.mp h with h | h
      · exact Or.inr (Or.inr (Or.inl h))
      rcases List.mem_cons.mp h with h | h
      · exact Or.inr (Or.inl h)
      · exact absurd h (List.not_mem_nil l)
    · obtain ⟨p, hp, he⟩ := List.mem_map.mp h
      exact Or.inr (Or.inr (Or.inr ⟨p, hp, he.symm⟩))
  · simp only [List.mem_singleton] at h
    exact Or.inr (Or.inl h)

/-- C4 (amended): the emitter itself writes the delimiter sequence only
when producing header lines; every other occurrence is copied verbatim
from file contents.  Hence, for every repository whose file paths
contain neither a newline nor the delimiter sequence and whose emitted
bodies do not contain the delimiter sequence, every line of the
artifact in which the delimiter occurs is exactly the header line of
one of the emitted files. -/
theorem delimiter_only_header_lines (detect : List Char → Option (List Char))
    (max_file_size : Nat) (files : List SourceFile)
    (hnl : ∀ f ∈ files, '\n' ∉ f.path)
    (hpath : ∀ f ∈ files, ¬ ("=== ".data <:+: f.path))
    (hbody : ∀ f ∈ files, ¬ ("=== ".data <:+: fileBody detect f)) :
    ∀ line ∈ splitChar '\n' (ingest detect max_file_size files),
      "=== ".data <:+: line →
      ∃ f ∈ files, line = "=== ".data ++ f.path ++ " ===".data := by
  have hNoNl : ∀ l ∈ treeLines (files.map SourceFile.path)
      ++ (files.map (fun f => blockLines detect max_file_size f)).flatten,
      '\n' ∉ l := by
    intro l hl
    rcases List.mem_append.mp hl with hl | hl
    · rcases mem_treeLines_cases hl with hl | hl | hl | ⟨p, hpm, hpe⟩
      · subst hl; decide
      · subst hl; simp
      · subst hl
        intro hmem
        rcases List.mem_append.mp hmem with hm | hm
        · exact absurd hm (by decide)
        · exact absurd (natDigits_all_digits _ '\n' hm) (by decide)
      · obtain ⟨f, hf, hfp⟩ := List.mem_map.mp hpm
        subst hpe
        intro hmem
        rcases List.mem_append.mp hmem with hm | hm
        · exact absurd hm (by decide)
        · exact hnl f hf (hfp ▸ hm)
    · obtain ⟨bl, hbl, hlin⟩ := List.mem_flatten.mp hl
      obtain ⟨f, hf, hfe⟩ := List.mem_map.mp hbl
      subst hfe
      unfold blockLines at hlin
      by_cases hsz : f.size > max_file_size
      · rw [if_pos hsz] at hlin
        exact absurd hlin (List.not_mem_nil l)
      · rw [if_neg hsz] at hlin
        rcases List.mem_cons.mp hlin with hl1 | hl1
        · subst hl1
          intro hmem
          rcases List.mem_append.mp hmem with hm | hm
          · rcases List.mem_append.mp hm with hm2 | hm2
            · exact absurd hm2 (by decide)
            · exact hnl f hf hm2
          · exact absurd hm (by decide)
        · rcases List.mem_append.mp hl1 with hl2 | hl2
          · exact not_mem_of_mem_splitChar hl2
          · simp only [List.mem_singleton] at hl2
            subst hl2; simp
  intro line hline hq
  rw [ingest_eq_unlines, splitChar_unlines _ hNoNl] at hline
  rcases List.mem_append.mp hline with hline | hline
  swap
  · simp only [List.mem_singleton] at hline
    subst hline
    exact absurd hq no_delim_in_nil
  rcases List.mem_append.mp hline with hline | hline
  · rcases mem_treeLines_cases hline with hl | hl | hl | ⟨p, hpm, hpe⟩
    · subst hl; exact absurd hq (by decide)
    · subst hl; exact absurd hq no_delim_in_nil
    · subst hl; exact absurd hq (no_delim_in_total_line _)
    · obtain ⟨f, hf, hfp⟩ := List.mem_map.mp hpm
      subst hpe
      exact absurd hq (no_delim_in_indent_line p (hfp ▸ hpath f hf))
  · obtain ⟨bl, hbl, hlin⟩ := List.mem_flatten.mp hline
    obtain ⟨f, hf, hfe⟩ := List.mem_map.mp hbl
    subst hfe
    unfold blockLines at hlin
    by_cases hsz : f.size > max_file_size
    · rw [if_pos hsz] at hlin
      exact absurd hlin (List.not_mem_nil line)
    · rw [if_neg hsz] at hlin
      rcases List.mem_cons.mp hlin with hl1 | hl1
      · exact ⟨f, hf, by simpa using hl1⟩
      · rcases List.mem_append.mp hl1 with hl2 | hl2
        · exact absurd (hq.trans (infix_of_mem_splitChar hl2)) (hbody f hf)
        · simp only [List.mem_singleton] at hl2
          subst hl2
          exact absurd hq no_delim_in_nil

/-- Witness for C4's amended theorem: in the one-file repository with
path a.txt and body hello, the header line is characterized by the
theorem. -/
theorem delimiter_only_header_lines_witness :
    ∃ f ∈ [(⟨"a.txt".data, 5, some "hello".data⟩ : SourceFile)],
      "=== a.txt ===".data = "=== ".data ++ f.path ++ " ===".data :=
  delimiter_only_header_lines (fun _ => none) 100
    [⟨"a.txt".data, 5, some "hello".data⟩]
    (by decide) (by decide) (by decide)
    "=== a.txt ===".data (by decide) (by decide)

example : parse_github_url "https://github.com/rust-lang/rust".data
    = some ⟨"rust-lang".data, "rust".data, none, none, UrlType.Repository,
        canonGithub "rust-lang".data "rust".data⟩ := by decide

example : parse_github_url "https://github.com/owner/repo/tree/main/src/lib".data
    = some ⟨"owner".data, "repo".data, some "main".data, some "src/lib".data,
        UrlType.Tree, canonGithub "owner".data "repo".data⟩ := by decide

example : parse_github_url "https://github.com/owner/repo/blob/master/README.md".data
    = some ⟨"owner".data, "repo".data, some "master".data, some "README.md".data,
        UrlType.Blob, canonGithub "owner".data "repo".data⟩ := by decide

/-- C8 counterexample: the input of three exclamation marks is neither
a recognized forge URL nor a valid shorthand, yet normalization
succeeds and returns it passed through unchanged instead of failing
with a structured error — indeed the function has no error path. -/
theorem normalize_passthrough_counterexample :
    normalize_source_url (fun c => c.isAlphanum) "!!!".data none none
      = Except.ok ("!!!".data, none, none) := by rfl

/-- C8 (amended): normalize_source_url never fails; for every input it
returns Ok, and whenever the input is not a recognized GitHub or
GitLab URL and not an accepted owner-slash-repo shorthand, the Ok
carries the input source string unchanged together with the given
branch and path. -/
theorem normalize_never_fails :
    (∀ (isAlnum : Char → Bool) (source : List Char)
        (branch pathPfx : Option (List Char)),
      ∃ v, normalize_source_url isAlnum source branch pathPfx = Except.ok v)
    ∧ (∀ (isAlnum : Char → Bool) (source : List Char)
        (branch pathPfx : Option (List Char)),
      parse_github_url source = none →
      parse_gitlab_url source = none →
      shorthand_candidate isAlnum source = none →
      normalize_source_url isAlnum source branch pathPfx
        = Except.ok (source, branch, pathPfx)) := by
  constructor
  · intro isAlnum source branch pathPfx
    unfold normalize_source_url
    cases parse_github_url source with
    | some parsed => exact ⟨_, rfl⟩
    | none =>
      cases parse_gitlab_url source with
      | some parsed => exact ⟨_, rfl⟩
      | none =>
        cases shorthand_candidate isAlnum source with
        | some url => exact ⟨_, rfl⟩
        | none => exact ⟨_, rfl⟩
  · intro isAlnum source branch pathPfx h1 h2 h3
    unfold normalize_source_url
    rw [h1, h2, h3]

/-- Witness for C8's amended theorem at the concrete unrecognized
input. -/
theorem normalize_never_fails_witness :
    normalize_source_url (fun c => c.isAlphanum) "!!!".data none none
      = Except.ok ("!!!".data, none, none) :=
  normalize_never_fails.2 (fun c => c.isAlphanum) "!!!".data none none
    rfl rfl rfl

theorem foldl_lruMin_mem (e : CachedRepository) (es : List CachedRepository) :
    (es.foldl
      (fun acc x => if x.last_accessed < acc.last_accessed then x else acc) e)
      ∈ e :: es := by
  induction es generalizing e with
  | nil => simp
  | cons x xs ih =>
    simp only [List.foldl_cons]
    rcases List.mem_cons.mp
        (ih (if x.last_accessed < e.last_accessed then x else e)) with h | h
    · rw [h]
      by_cases hc : x.last_accessed < e.last_accessed
      · rw [if_pos hc]
        exact List.mem_cons_of_mem e (List.mem_cons_self x xs)
      · rw [if_neg hc]
        exact List.mem_cons_self e (x :: xs)
    · exact List.mem_cons_of_mem e (List.mem_cons_of_mem x h)

theorem lru_key_mem {s : CacheState} {k : List Char}
    (h : lru_key s = some k) : ∃ e ∈ s, e.key = k := by
  cases s with
  | nil => exact absurd h (by simp [lru_key])
  | cons e es =>
    simp only [lru_key, Option.some_inj] at h
    exact ⟨_, foldl_lruMin_mem e es, h⟩

theorem removeKey_subset {k : List Char} {s : CacheState} :
    ∀ e ∈ removeKey k s, e ∈ s :=
  fun _e he => (List.mem_filter.mp he).1

theorem removeKey_length_lt {s : CacheState} {k : List Char}
    (h : ∃ e ∈ s, e.key = k) : (removeKey k s).length < s.length := by
  induction s with
  | nil => simp at h
  | cons e es ih =>
    obtain ⟨x, hx, hk⟩ := h
    by_cases he : e.key = k
    · have : removeKey k (e :: es) = removeKey k es := by
        simp [removeKey, List.filter_cons, he]
      rw [this]
      exact Nat.lt_succ_of_le (List.length_filter_le _ es)
    · have hx' : x ∈ es := by
        rcases List.mem_cons.mp hx with hx | hx
        · exact absurd (hx ▸ hk) he
        · exact hx
      have : removeKey k (e :: es) = e :: removeKey k es := by
        simp [removeKey, List.filter_cons, he]
      rw [this]
      exact Nat.succ_lt_succ (ih ⟨x, hx', hk⟩)

theorem calculate_size_removeKey_le (k : List Char) (s : CacheState) :
    calculate_size (removeKey k s) ≤ calculate_size s := by
  induction s with
  | nil => simp [removeKey, calculate_size]
  | cons e es ih =>
    by_cases he : e.key = k
    · have : removeKey k (e :: es) = removeKey k es := by
        simp [removeKey, List.filter_cons, he]
      rw [this]
      calc calculate_size (removeKey k es) ≤ calculate_size es := ih
        _ ≤ e.size_bytes + calculate_size es := Nat.le_add_left _ _
        _ = calculate_size (e :: es) := by simp [calculate_size]
    · have : removeKey k (e :: es) = e :: removeKey k es := by
        simp [removeKey, List.filter_cons, he]
      rw [this]
      have h1 : calculate_size (e :: removeKey k es)
          = e.size_bytes + calculate_size (removeKey k es) := by
        simp [calculate_size]
      have h2 : calculate_size (e :: es)
          = e.size_bytes + calculate_size es := by
        simp [calculate_size]
      rw [h1, h2]
      exact Nat.add_le_add_left ih e.size_bytes

theorem evict_loop_subset (max_size new_size : Nat) :
    ∀ (fuel : Nat) (s : CacheState), ∀ e ∈ evict_loop max_size new_size fuel s,
      e ∈ s := by
  intro fuel
  induction fuel with
  | zero => intro s e he; exact he
  | succ fuel ih =>
    intro s e he
    unfold evict_loop at he
    by_cases hg : (decide (max_size < calculate_size s + new_size)
        && !s.isEmpty) = true
    · rw [if_pos hg] at he
      cases hk : lru_key s with
      | none => rw [hk] at he; exact he
      | some k =>
        rw [hk] at he
        exact removeKey_subset e (ih (removeKey k s) e he)
    · rw [if_neg hg] at he
      exact he

theorem evict_loop_post (max_size new_size : Nat) :
    ∀ (fuel : Nat) (s : CacheState), s.length ≤ fuel →
      calculate_size (evict_loop max_size new_size fuel s) + new_size ≤ max_size
        ∨ evict_loop max_size new_size fuel s = [] := by
  intro fuel
  induction fuel with
  | zero =>
    intro s hs
    have : s = [] := List.eq_nil_of_length_eq_zero (Nat.le_zero.mp hs)
    subst this
    exact Or.inr rfl
  | succ fuel ih =>
    intro s hs
    unfold evict_loop
    by_cases hg : (decide (max_size < calculate_size s + new_size)
        && !s.isEmpty) = true
    · rw [if_pos hg]
      have hne : s ≠ [] := by
        have := (Bool.and_eq_true .. |>.mp hg).2
        simpa [List.isEmpty_iff] using this
      cases hk : lru_key s with
      | none =>
        cases s with
        | nil => exact absurd rfl hne
        | cons e es => exact absurd hk (by simp [lru_key])
      | some k =>
        have hlt : (removeKey k s).length < s.length :=
          removeKey_length_lt (lru_key_mem hk)
        exact ih (removeKey k s) (by omega)
    · rw [if_neg hg]
      rcases Bool.and_eq_false_iff.mp (Bool.not_eq_true _ |>.mp hg) with hg1 | hg2
      · left
        have : ¬ (max_size < calculate_size s + new_size) := by
          simpa using hg1
        omega
      · right
        simpa [List.isEmpty_iff] using hg2

/-- C1 counterexample: putting an entry of 11 content bytes into the
empty cache with a 10-byte budget leaves the cache holding 11 bytes —
the eviction loop stops at the empty map and the oversized entry is
inserted regardless, so the budget does not hold after the put. -/
theorem put_budget_counterexample :
    10 < calculate_size (put 10 0 "k".data "u".data none "c".data
      (List.replicate 11 'a') []) := by decide

/-- C1 (amended): after any put whose incoming entry fits the budget by
itself (content length at most max_size), the total of size_bytes over
all entries is at most max_size, whatever the prior state; when the
incoming entry alone exceeds the budget, the put empties the cache and
inserts just that entry, leaving the total above the budget. -/
theorem put_budget (max_size now : Nat) (key url : List Char)
    (branch : Option (List Char)) (commit content : List Char)
    (s : CacheState) :
    (content.length ≤ max_size →
      calculate_size (put max_size now key url branch commit content s)
        ≤ max_size)
    ∧ (max_size < content.length →
      put max_size now key url branch commit content s
        = [mkEntry now key url branch commit content]) := by
  have hsize : calculate_size (put max_size now key url branch commit content s)
      = content.length
        + calculate_size (removeKey key
            (evict_loop max_size content.length s.length s)) := by
    simp [put, calculate_size, mkEntry]
  rcases evict_loop_post max_size content.length s.length s (Nat.le_refl _)
    with hpost | hpost
  · constructor
    · intro _
      rw [hsize]
      have h1 := calculate_size_removeKey_le key
        (evict_loop max_size content.length s.length s)
      omega
    · intro hbig
      exact absurd hpost (by omega)
  · constructor
    · intro hfit
      rw [hsize, hpost]
      simp [removeKey, calculate_size]
      omega
    · intro _
      simp [put, hpost, removeKey]

/-- Witness for C1's amended theorem: a five-byte entry under a
ten-byte budget, and a fifteen-byte entry under the same budget. -/
theorem put_budget_witness :
    calculate_size (put 10 0 "k".data "u".data none "c".data
        (List.replicate 5 'a') []) ≤ 10
    ∧ put 10 0 "k".data "u".data none "c".data (List.replicate 15 'a') []
        = [mkEntry 0 "k".data "u".data none "c".data (List.replicate 15 'a')] :=
  ⟨(put_budget 10 0 "k".data "u".data none "c".data (List.replicate 5 'a')
      []).1 (by decide),
   (put_budget 10 0 "k".data "u".data none "c".data (List.replicate 15 'a')
      []).2 (by decide)⟩

theorem entryInv_mono {c c2 : Nat} {e : CachedRepository} (h : c ≤ c2)
    (he : entryInv c e) : entryInv c2 e :=
  ⟨he.1, he.2.1, he.2.2.1.trans h, he.2.2.2.trans h⟩

theorem stateInv_mono {c c2 : Nat} {s : CacheState} (h : c ≤ c2)
    (hs : stateInv c s) : stateInv c2 s :=
  fun e he => entryInv_mono h (hs e he)

theorem step_inv (max_size : Nat) (op : CacheOp) {c : Nat} {s : CacheState}
    (hInv : stateInv c s) (hc : c ≤ opClock c op) :
    stateInv (opClock c op) (step max_size op s) := by
  cases op with
  | opPut now key url branch commit content =>
    simp only [step, opClock] at *
    intro e he
    rcases List.mem_cons.mp he with he | he
    · subst he
      exact ⟨Nat.le_refl _, Nat.le_refl _, Nat.le_refl _, Nat.le_refl _⟩
    · have hmem : e ∈ s :=
        evict_loop_subset max_size content.length s.length s e
          (removeKey_subset e he)
      exact entryInv_mono hc (hInv e hmem)
  | opGet now key =>
    simp only [step, opClock] at *
    unfold get
    cases hf : s.find? (fun e => e.key == key) with
    | none => exact stateInv_mono hc hInv
    | some e0 =>
      dsimp only
      by_cases hexp : CACHE_EXPIRE_SECS < now - e0.created_at
      · rw [if_pos hexp]
        intro e he
        exact entryInv_mono hc (hInv e (removeKey_subset e he))
      · rw [if_neg hexp]
        intro e he
        obtain ⟨y, hy, hye⟩ := List.mem_map.mp he
        obtain ⟨hy1, hy2, hy3, hy4⟩ := hInv y hy
        by_cases hk : y.key == key
        · rw [if_pos hk] at hye
          subst hye
          exact ⟨hy1, (hy1.trans hy3).trans hc, hy3.trans hc, Nat.le_refl now⟩
        · rw [if_neg hk] at hye
          subst hye
          exact entryInv_mono hc ⟨hy1, hy2, hy3, hy4⟩
  | opMarkValidated now key =>
    simp only [step, opClock] at *
    unfold mark_validated
    intro e he
    obtain ⟨y, hy, hye⟩ := List.mem_map.mp he
    obtain ⟨hy1, hy2, hy3, hy4⟩ := hInv y hy
    by_cases hk : y.key == key
    · rw [if_pos hk] at hye
      subst hye
      exact ⟨(hy1.trans hy3).trans hc, hy2, Nat.le_refl now, hy4.trans hc⟩
    · rw [if_neg hk] at hye
      subst hye
      exact entryInv_mono hc ⟨hy1, hy2, hy3, hy4⟩
  | opInvalidate key =>
    simp only [step, opClock] at *
    intro e he
    exact hInv e (removeKey_subset e he)
  | opCheckStatus now key =>
    simp only [step, opClock] at *
    exact stateInv_mono hc hInv

theorem run_inv (max_size : Nat) (ops : List CacheOp) :
    ∀ (c : Nat) (s : CacheState), stateInv c s →
      timesMonotone c ops = true →
      stateInv (clockAfter c ops) (run max_size s ops) := by
  induction ops with
  | nil =>
    intro c s h _
    simpa [clockAfter, run] using h
  | cons op ops ih =>
    intro c s h hmono
    simp only [timesMonotone, Bool.and_eq_true, decide_eq_true_eq] at hmono
    obtain ⟨hc, hrest⟩ := hmono
    have h1 := step_inv max_size op h hc
    have h2 := ih (opClock c op) (step max_size op s) h1 hrest
    simpa [clockAfter, run, List.foldl_cons] using h2

/-- C2 counterexample: starting from the empty cache, put a key at
second 0 and mark_validated it at second 1 (a time-monotone trace of
the claimed operations).  The resulting entry has last_validated = 1
but last_accessed = 0, because mark_validated sets only
last_validated; the claimed chain created_at ≤ last_validated ≤
last_accessed fails at its second inequality. -/
theorem mark_validated_counterexample :
    timesMonotone 0
        [CacheOp.opPut 0 "k".data "u".data none "c".data "r".data,
         CacheOp.opMarkValidated 1 "k".data] = true
    ∧ ∃ e ∈ run 100 []
        [CacheOp.opPut 0 "k".data "u".data none "c".data "r".data,
         CacheOp.opMarkValidated 1 "k".data],
        ¬ (e.last_validated ≤ e.last_accessed) := by decide

/-- C2 (amended): in every state reachable from the empty cache by a
time-monotone sequence of put, get, check_status, mark_validated and
invalidate operations, every entry satisfies created_at ≤
last_validated and created_at ≤ last_accessed; the ordering between
last_validated and last_accessed is not invariant. -/
theorem cache_timestamp_invariant (max_size : Nat) (ops : List CacheOp)
    (h : timesMonotone 0 ops = true) :
    ∀ e ∈ run max_size [] ops,
      e.created_at ≤ e.last_validated ∧ e.created_at ≤ e.last_accessed := by
  intro e he
  have h0 : stateInv 0 [] := fun x hx => absurd hx (List.not_mem_nil x)
  have := run_inv max_size ops 0 [] h0 h e he
  exact ⟨this.1, this.2.1⟩

/-- Witness for C2's amended theorem: the entry left by a put at
second 0 followed by a get at second 1. -/
theorem cache_timestamp_invariant_witness :
    (⟨"k".data, "u".data, none, "c".data, "r".data, 0, 1, 0, 2, 1⟩
        : CachedRepository).created_at
      ≤ (⟨"k".data, "u".data, none, "c".data, "r".data, 0, 1, 0, 2, 1⟩
        : CachedRepository).last_validated
    ∧ (⟨"k".data, "u".data, none, "c".data, "r".data, 0, 1, 0, 2, 1⟩
        : CachedRepository).created_at
      ≤ (⟨"k".data, "u".data, none, "c".data, "r".data, 0, 1, 0, 2, 1⟩
        : CachedRepository).last_accessed :=
  cache_timestamp_invariant 100
    [CacheOp.opPut 0 "k".data "u".data none "c".data "r".data,
     CacheOp.opGet 1 "k".data] (by decide)
    ⟨"k".data, "u".data, none, "c".data, "r".data, 0, 1, 0, 2, 1⟩ (by decide)

end Githem
